import Mathlib

/-!
Shallow embedding of the `FileBrowser` widget from
`src/nenotk/widgets/file_browser/__init__.py` (repository NenoTk).

Modelling conventions:
* A filesystem path is a list of name components (`Path`), mirroring
  `pathlib.Path` restricted to the operations the widget uses
  (`name` = last component, `parent` = drop the last component,
  `dir / name` = append a component).
* The filesystem collaborator (`os`/`pathlib`/`shutil`, which are external
  to this repository) is modelled by a finite table of existing paths with
  an is-directory flag, plus explicit failure sets for listing errors and
  move/copy errors, so that fallible calls return `Except`.
* Python strings are modelled as Lean `String`/`List Char` with ASCII
  case conversion and ASCII whitespace/digits; every concrete input used
  in the theorems below is ASCII, where the models agree with Python.
-/

namespace NenoTkFB

/-- A filesystem path as a list of components (model of `pathlib.Path`). -/
abbrev Path := List String

/-- `pathlib`: the final component (`Path.name`); empty for the root. -/
def pathName (p : Path) : String := (p.getLast?).getD ""

/-- `pathlib`: the parent path (`Path.parent`). -/
def pathParent (p : Path) : Path := p.dropLast

/-! ### Python string primitives (ASCII model) -/

/-- ASCII whitespace recognised by Python's `str.strip()` (ASCII fragment). -/
def isPySpace (c : Char) : Bool :=
  c = ' ' ∨ c = '\t' ∨ c = '\n' ∨ c = '\x0d' ∨ c = '\x0b' ∨ c = '\x0c'

/-- Model of Python `str.strip()`: drop leading and trailing whitespace. -/
def pyStrip (s : String) : String :=
  ⟨((s.toList.dropWhile isPySpace).reverse.dropWhile isPySpace).reverse⟩

/-- Model of Python `str.upper()` (ASCII case map). -/
def pyUpper (s : String) : String := ⟨s.toList.map Char.toUpper⟩

/-- Model of Python `str.lower()` (ASCII case map). -/
def pyLower (s : String) : String := ⟨s.toList.map Char.toLower⟩

/-- Index of the last `'.'` in a list of characters, if any. -/
def lastDotIdx (cs : List Char) : Option Nat :=
  match cs with
  | [] => none
  | c :: rest =>
    match lastDotIdx rest with
    | some i => some (i + 1)
    | none => if c = '.' then some 0 else none

/-- Model of `pathlib.Path(name).stem` for a separator-free name:
`'.'` and `'..'` have empty `name` (hence empty stem); otherwise the part
before the last `'.'` when that dot is neither first nor last. -/
def pyStem (s : String) : String :=
  if s = "." ∨ s = ".." then ""
  else
    match lastDotIdx s.toList with
    | some i => if 0 < i ∧ i < s.toList.length - 1 then ⟨s.toList.take i⟩ else s
    | none => s

/-- Model of `pathlib.Path(name).suffix` for a separator-free name. -/
def pySuffix (s : String) : String :=
  if s = "." ∨ s = ".." then ""
  else
    match lastDotIdx s.toList with
    | some i => if 0 < i ∧ i < s.toList.length - 1 then ⟨s.toList.drop i⟩ else ""
    | none => ""

/-! ### `FileBrowser._natural_sort_key` and the listing comparator

Python builds, from `name.lower()`, the tuple of `(0, int(run))` for digit
runs and `(1, run)` for non-digit runs.  Comparing two such tuples follows
Python's tuple/`<` semantics, where comparing an `int` with a `str` raises
`TypeError`; we model a possibly-raising comparison by `Option Ordering`,
`none` standing for a raised `TypeError`. -/

/-- A Python value appearing in the natural-sort key: an int or a string. -/
inductive PyVal : Type
  | vint (n : Nat)
  | vstr (cs : List Char)
deriving DecidableEq, Repr

/-- One element of the key: a `(tag, value)` pair as built by the source. -/
abbrev KeyElem := Nat × PyVal

/-- Lexicographic comparison of character lists (Python `str` comparison,
by code point). -/
def lexCmp : List Char → List Char → Ordering
  | [], [] => .eq
  | [], _ :: _ => .lt
  | _ :: _, [] => .gt
  | a :: as_, b :: bs =>
    match compare a b with
    | .eq => lexCmp as_ bs
    | o => o

/-- Python comparison of two primitive values; `none` models `TypeError`
when an `int` meets a `str`. -/
def cmpPyVal : PyVal → PyVal → Option Ordering
  | .vint n, .vint m => some (compare n m)
  | .vstr a, .vstr b => some (lexCmp a b)
  | _, _ => none

/-- Python comparison of two key elements (pairs): compare the integer tags
first, only on equality compare the payloads (which can raise). -/
def cmpKeyElem (a b : KeyElem) : Option Ordering :=
  match compare a.1 b.1 with
  | .eq => cmpPyVal a.2 b.2
  | o => some o

/-- Python comparison of two whole keys (tuples of pairs), propagating a
`TypeError` from the first differing position. -/
def keyCmp : List KeyElem → List KeyElem → Option Ordering
  | [], [] => some .eq
  | [], _ :: _ => some .lt
  | _ :: _, [] => some .gt
  | a :: as_, b :: bs =>
    match cmpKeyElem a b with
    | none => none
    | some .eq => keyCmp as_ bs
    | some o => some o

/-- Split a string into maximal runs of digits / non-digits, the result of
`re.findall(r'\d+|\D+', s)` (ASCII digit model). -/
def splitRuns : List Char → List (List Char)
  | [] => []
  | [c] => [[c]]
  | c :: d :: rest =>
    match splitRuns (d :: rest) with
    | [] => [[c]]
    | r :: rs => if d.isDigit = c.isDigit then (c :: r) :: rs else [c] :: r :: rs

/-- Decimal value of a digit run (Python `int(part)`). -/
def digitsVal (cs : List Char) : Nat :=
  cs.foldl (fun a c => a * 10 + (c.toNat - 48)) 0

/-- `FileBrowser._natural_sort_key`: lowercase the name, split it into
digit / non-digit runs, tag digit runs `(0, int)` and other runs
`(1, str)`. -/
def naturalSortKey (s : String) : List KeyElem :=
  (splitRuns (s.toList.map Char.toLower)).map fun r =>
    match r with
    | c :: _ => if c.isDigit then (0, PyVal.vint (digitsVal r)) else (1, PyVal.vstr r)
    | [] => (1, PyVal.vstr [])

/-! ### `FileBrowser._validate_name` -/

/-- `FileBrowser.INVALID_FILENAME_CHARS`. -/
def INVALID_FILENAME_CHARS : String := "<>:\"/\\|?*"

/-- `FileBrowser.RESERVED_FILENAMES`. -/
def RESERVED_FILENAMES : List String :=
  ["CON", "PRN", "AUX", "NUL",
   "COM1", "COM2", "COM3", "COM4", "COM5", "COM6", "COM7", "COM8", "COM9",
   "LPT1", "LPT2", "LPT3", "LPT4", "LPT5", "LPT6", "LPT7", "LPT8", "LPT9"]

/-- Model of Python `name.endswith(c)` for a single-character suffix:
the last character equals `c`. -/
def endsWithChar (s : String) (c : Char) : Bool := s.toList.getLast? = some c

/-- The body of `FileBrowser._validate_name(name, parent_dir)` after the
initial `name = name.strip()`.  The check whether `parent_dir / name`
already exists is abstracted by the predicate `exists_` on candidate names
(the filesystem query `new_path.exists()`).  Returns the error message, or
`none` when the name is valid. -/
def validateStripped (exists_ : String → Bool) (name : String) : Option String :=
  if name = "" then some "Name cannot be empty."
  else if INVALID_FILENAME_CHARS.toList.any (fun c => name.toList.contains c) then
    some ("Name contains invalid characters: " ++ INVALID_FILENAME_CHARS)
  else if RESERVED_FILENAMES.contains (pyUpper (pyStem name)) then
    some ("'" ++ name ++ "' is a reserved system name.")
  else if endsWithChar name ' ' ∨ endsWithChar name '.' then
    some "Name cannot end with a space or period."
  else if exists_ name then
    some ("An item named '" ++ name ++ "' already exists.")
  else none

/-- `FileBrowser._validate_name` proper: `name = name.strip()` first, then
the checks above on the stripped name. -/
def validateName (exists_ : String → Bool) (name0 : String) : Option String :=
  validateStripped exists_ (pyStrip name0)

/-! ### Filesystem collaborator model

The widget talks to `os`/`pathlib`/`shutil`, which are external to this
repository.  We model the filesystem as a finite table of existing paths
(with an is-directory flag), a set of directories whose listing raises
(`PermissionError`/`OSError`), and a set of sources for which a
`shutil.move`/`copy` call raises. -/

structure FS where
  entries : List (Path × Bool)
  failing : List Path
  transferFail : List Path
deriving Repr, DecidableEq

/-- `path.exists()`. -/
def pexists (σ : FS) (p : Path) : Bool := σ.entries.any (fun e => e.1 = p)

/-- `path.is_dir()` (false for a missing path, as in `pathlib`). -/
def isDir (σ : FS) (p : Path) : Bool := σ.entries.any (fun e => e.1 = p ∧ e.2 = true)

/-- The raw children of a directory: existing paths one component below it. -/
def childrenP (σ : FS) (p : Path) : List Path :=
  ((σ.entries.filter (fun e => e.1.length = p.length + 1 ∧ p.isPrefixOf e.1)).map (fun e => e.1))

/-- `path.iterdir()`: raises for paths in the failing set. -/
def listdir (σ : FS) (p : Path) : Except String (List Path) :=
  if σ.failing.contains p then Except.error "Permission denied" else Except.ok (childrenP σ p)

/-- Length of the longest existing path, used to bound tree depth. -/
def maxPathLen (σ : FS) : Nat := (σ.entries.map (fun e => e.1.length)).foldr max 0

/-! ### Name-override map (`_name_map`, `_get_mapped_name`)

`pathlib.Path.resolve` is an external collaborator; `_resolve_path_safe`
(resolve, falling back to the unresolved path on failure) is modelled by a
total function `resolve : Path → Path` passed as a parameter. -/

/-- First value stored under an exact key in the association-list model of
the Python dict. -/
def lookupNM (nm : List (Path × String)) (p : Path) : Option String :=
  (nm.find? (fun e => e.1 = p)).map (fun e => e.2)

/-- `FileBrowser._get_mapped_name`: exact lookup first, then the resolved
form. -/
def getMappedName (resolve : Path → Path) (nm : List (Path × String)) (p : Path) :
    Option String :=
  match lookupNM nm p with
  | some v => some v
  | none => lookupNM nm (resolve p)

/-- Remove a key from the dict model. -/
def eraseNM (k : Path) (nm : List (Path × String)) : List (Path × String) :=
  nm.filter (fun e => ¬ e.1 = k)

/-- Dict assignment `nm[k] = v`. -/
def setNM (k : Path) (v : String) (nm : List (Path × String)) : List (Path × String) :=
  eraseNM k nm ++ [(k, v)]

/-- `FileBrowser._update_name_map_entry(old, new)`. -/
def updateNameMapEntry (resolve : Path → Path) (nm : List (Path × String))
    (oldP newP : Path) : List (Path × String) :=
  match getMappedName resolve nm oldP with
  | none => nm
  | some v => setNM (resolve newP) v (eraseNM (resolve oldP) (eraseNM oldP nm))

/-! ### Sorted directory listing (`_iter_directory`) -/

/-- The sort key of one entry:
`(not p.is_dir(), natural_sort_key(mapped.lower() or p.name))`. -/
def entrySortKey (σ : FS) (resolve : Path → Path) (nm : List (Path × String))
    (p : Path) : Bool × List KeyElem :=
  (!(isDir σ p),
    match getMappedName resolve nm p with
    | some m => naturalSortKey (pyLower m)
    | none => naturalSortKey (pathName p))

/-- Python ordering on the sort keys (`bool` compares as `0 < 1`; ties
compare the natural keys, where `TypeError` cannot occur on keys built by
`naturalSortKey`). -/
def entryKeyLE (x y : Bool × List KeyElem) : Bool :=
  match x.1, y.1 with
  | false, true => true
  | true, false => false
  | _, _ => decide (keyCmp x.2 y.2 ≠ some Ordering.gt)

/-- Stable insertion of an element into an already sorted list. -/
def insSorted (le : α → α → Bool) (x : α) : List α → List α
  | [] => [x]
  | y :: ys => if le x y then x :: y :: ys else y :: insSorted le x ys

/-- Stable sort (model of Python's stable `list.sort(key=...)`; no claim
below depends on the produced order, only on membership). -/
def insSortBy (le : α → α → Bool) : List α → List α
  | [] => []
  | x :: xs => insSorted le x (insSortBy le xs)

/-- `FileBrowser._iter_directory`: listing failures yield `[]`; otherwise
entries sorted with directories first and natural name order. -/
def iterDirectory (σ : FS) (resolve : Path → Path) (nm : List (Path × String))
    (p : Path) : List Path :=
  match listdir σ p with
  | Except.error _ => []
  | Except.ok es =>
    insSortBy (fun a b => entryKeyLE (entrySortKey σ resolve nm a) (entrySortKey σ resolve nm b)) es

/-! ### The materialized tree

A `ttk.Treeview` item carries an open flag and (for the widget) either a
path registered in `_node_paths` or the synthetic placeholder child that
renders the expand affordance.  Item ids serve only as keys, so the tree
is modelled directly as a rose tree. -/

inductive TItem : Type
  | placeholder : TItem
  | node : Path → Bool → List TItem → TItem

mutual
/-- Paths of all open nodes in a subtree (`get_expansion_state` collects
the open flag, then recurses into every child). -/
def opensI : TItem → List Path
  | .placeholder => []
  | .node p o ch => (if o then [p] else []) ++ opensL ch

/-- Paths of all open nodes in a forest. -/
def opensL : List TItem → List Path
  | [] => []
  | t :: ts => opensI t ++ opensL ts
end

mutual
/-- Paths of all nodes in a subtree (the range of `_node_paths`). -/
def treePathsI : TItem → List Path
  | .placeholder => []
  | .node p _ ch => p :: treePathsL ch

/-- Paths of all nodes in a forest. -/
def treePathsL : List TItem → List Path
  | [] => []
  | t :: ts => treePathsI t ++ treePathsL ts
end

/-- `FileBrowser._insert_node` (as a closed node constructor): a directory
node is seeded with the placeholder child. -/
def mkNode (σ : FS) (p : Path) (o : Bool) : TItem :=
  .node p o (if isDir σ p then [.placeholder] else [])

/-- The guard of `_expand_node`: exactly one child, and it is the
placeholder (`len(children) == 1 and placeholder tag present`). -/
def isPlaceholderList : List TItem → Bool
  | [TItem.placeholder] => true
  | _ => false

/-- `FileBrowser._expand_node`: when the only child is the placeholder,
replace it with one closed node per directory entry; otherwise no-op. -/
def expandNode (σ : FS) (resolve : Path → Path) (nm : List (Path × String)) :
    TItem → TItem
  | .placeholder => .placeholder
  | .node p o ch =>
    if isPlaceholderList ch then
      .node p o ((iterDirectory σ resolve nm p).map (fun q => mkNode σ q false))
    else .node p o ch

/-- `set_expansion_state`'s inner `expand_matching`: open and expand a node
whose path is in the snapshot, then recurse into its children; leave other
nodes untouched.  The fuel argument makes the recursion (whose Python
counterpart terminates because filesystem trees are acyclic and finite)
structurally terminating; `setExpansionState` supplies fuel larger than
the depth of any existing path, which the theorems below show is never
exhausted. -/
def expandMatching (σ : FS) (resolve : Path → Path) (nm : List (Path × String))
    (state : List Path) : Nat → TItem → TItem
  | 0, t => t
  | _ + 1, .placeholder => .placeholder
  | f + 1, .node p o ch =>
    if p ∈ state then
      match expandNode σ resolve nm (.node p true ch) with
      | .node p' o' ch' =>
        .node p' o' (ch'.map (expandMatching σ resolve nm state f))
      | t' => t'
    else .node p o ch

/-- `FileBrowser.set_expansion_state`: no-op on an empty snapshot, else
apply `expand_matching` to every root item. -/
def setExpansionState (σ : FS) (resolve : Path → Path) (nm : List (Path × String))
    (state : List Path) (forest : List TItem) : List TItem :=
  if state.isEmpty then forest
  else forest.map (expandMatching σ resolve nm state (maxPathLen σ + 2))

/-! ### Widget state and the public operations -/

/-- Clipboard mode (`_clipboard_mode`). -/
inductive ClipMode : Type
  | cut
  | copy
deriving DecidableEq, Repr

/-- The widget state the claims are about: root path, materialized tree,
name-override map, and clipboard state (`_cut_items` is modelled by the
marked paths). -/
structure FBState where
  rootPath : Path
  tree : List TItem
  nameMap : List (Path × String)
  clipPaths : List Path
  clipMode : Option ClipMode
  cutMarks : List Path

/-- `FileBrowser.get_expansion_state` (membership view of the Python set). -/
def getExpansionState (st : FBState) : List Path := opensL st.tree

/-- `FileBrowser.refresh`: snapshot expansion state, rebuild the root node
open and expanded, then restore the snapshot. -/
def refresh (σ : FS) (resolve : Path → Path) (st : FBState) : FBState :=
  let snapshot := opensL st.tree
  let rootNode := expandNode σ resolve st.nameMap (mkNode σ st.rootPath true)
  { st with tree := setExpansionState σ resolve st.nameMap snapshot [rootNode] }

/-- Errors raised by `change_directory`. -/
inductive FBError : Type
  | fileNotFound (p : Path)
  | notADirectory (p : Path)
deriving DecidableEq, Repr

/-- `FileBrowser.change_directory`: resolve, check existence and
directoriness (raising leaves the widget untouched — both raises occur
before `_root_path` is assigned), then set the root and rebuild. -/
def changeDirectory (σ : FS) (resolve : Path → Path) (st : FBState) (p : Path) :
    FBState × Option FBError :=
  if ¬ pexists σ (resolve p) then (st, some (.fileNotFound (resolve p)))
  else if ¬ isDir σ (resolve p) then (st, some (.notADirectory (resolve p)))
  else (refresh σ resolve { st with rootPath := resolve p }, none)

/-- `FileBrowser._set_clipboard`: replace the clipboard, clearing previous
cut marks; in cut mode mark the materialized nodes of the selection. -/
def setClipboard (st : FBState) (mode : ClipMode) (selected : List Path) : FBState :=
  if selected.isEmpty then st
  else
    let st1 := { st with cutMarks := [], clipPaths := selected, clipMode := some mode }
    if mode = ClipMode.cut then
      { st1 with cutMarks := (treePathsL st.tree).filter (fun p => selected.contains p) }
    else st1

/-! ### Paste (`_menu_paste`) -/

/-- Conflict-renaming candidate: the source stem with `" (N)"` appended
before the extension, as in `f"{base_name} ({counter}){suffix}"`.  The
loop below models the unbounded `while dest_path.exists()` with fuel;
`none` means the fuel ran out (the Python loop would not have finished
within that many iterations). -/
def conflictName (sname : String) (c : Nat) : String :=
  pyStem sname ++ " (" ++ Nat.repr c ++ ")" ++ pySuffix sname

/-- The body of the `while dest_path.exists()` loop: try successive
counters until the candidate is free. -/
def conflictLoop (σ : FS) (dest : Path) (sname : String) : Nat → Nat → Option Path
  | 0, _ => none
  | f + 1, c =>
    if pexists σ (dest ++ [conflictName sname c]) then conflictLoop σ dest sname f (c + 1)
    else some (dest ++ [conflictName sname c])

/-- Target resolution for one pasted source: `dest / sourceName`, renamed
through `conflictLoop` on collision. -/
def resolveTarget (σ : FS) (dest : Path) (sname : String) (fuel : Nat) : Option Path :=
  if pexists σ (dest ++ [sname]) then conflictLoop σ dest sname fuel 1
  else some (dest ++ [sname])

/-- Relocate one filesystem entry under a move/copy from `s` to `d`. -/
def relocateEntry (s d : Path) (e : Path × Bool) : Path × Bool :=
  if s.isPrefixOf e.1 then (d ++ e.1.drop s.length, e.2) else e

/-- `shutil.move` model: may raise; on success the source subtree is
re-rooted at the destination. -/
def moveFS (σ : FS) (s d : Path) : Except String FS :=
  if σ.transferFail.contains s then Except.error "move failed"
  else Except.ok { σ with entries := σ.entries.map (relocateEntry s d) }

/-- `shutil.copy2` model: may raise; on success the destination file exists. -/
def copyFileFS (σ : FS) (s d : Path) : Except String FS :=
  if σ.transferFail.contains s then Except.error "copy failed"
  else Except.ok { σ with entries := σ.entries ++ [(d, false)] }

/-- `shutil.copytree` model: may raise; on success a relocated copy of the
source subtree exists at the destination. -/
def copyTreeFS (σ : FS) (s d : Path) : Except String FS :=
  if σ.transferFail.contains s then Except.error "copy failed"
  else Except.ok
    { σ with entries :=
        σ.entries ++ (σ.entries.filter (fun e => s.isPrefixOf e.1)).map (relocateEntry s d) }

/-- The per-item loop of `_menu_paste`: skip missing sources (collecting an
error), resolve the conflict-free target, transfer, and collect either the
success or the error message; the batch never aborts on a per-item
failure.  `none` only when the conflict loop's fuel runs out (the Python
loop would not terminate). -/
def pasteLoop (mode : ClipMode) (dest : Path) (fuel : Nat) :
    List Path → FS → Nat → List String → List (Path × Path) →
    Option (FS × Nat × List String × List (Path × Path))
  | [], σ, n, errs, maps => some (σ, n, errs, maps)
  | s :: rest, σ, n, errs, maps =>
    if ¬ pexists σ s then
      pasteLoop mode dest fuel rest σ n
        (errs ++ ["Source no longer exists: " ++ pathName s]) maps
    else
      match resolveTarget σ dest (pathName s) fuel with
      | none => none
      | some dpath =>
        match (match mode with
               | ClipMode.cut => moveFS σ s dpath
               | ClipMode.copy =>
                 if isDir σ s then copyTreeFS σ s dpath else copyFileFS σ s dpath) with
        | Except.ok σ' => pasteLoop mode dest fuel rest σ' (n + 1) errs (maps ++ [(s, dpath)])
        | Except.error e =>
          pasteLoop mode dest fuel rest σ n (errs ++ [pathName s ++ ": " ++ e]) maps

/-- Outcome reported by `_menu_paste`. -/
inductive PasteReport : Type
  | noop
  | invalidDest
  | done (success : Nat) (errors : List String)

/-- The message shown after a paste, mirroring the source's format strings:
up to the first 5 errors, with an `... and N more errors` suffix. -/
def buildPasteMsg (n : Nat) (errs : List String) : Option String :=
  if errs.isEmpty then
    (if n > 0 then some ("Pasted " ++ Nat.repr n ++ " item(s).") else none)
  else
    some ("Pasted " ++ Nat.repr n ++ " item(s).\n\nErrors:\n"
      ++ String.intercalate "\n" (errs.take 5)
      ++ (if errs.length > 5 then
            "\n... and " ++ Nat.repr (errs.length - 5) ++ " more errors"
          else ""))

/-- `FileBrowser._menu_paste`: guard on an empty clipboard, resolve the
destination from the selection (else the root), fail fast on an invalid
destination, run the per-item loop, transfer name-map entries, clear the
clipboard after a cut, and refresh. -/
def menuPaste (σ : FS) (resolve : Path → Path) (st : FBState)
    (selected : List Path) (fuel : Nat) : Option (FBState × FS × PasteReport) :=
  match st.clipPaths, st.clipMode with
  | [], _ => some (st, σ, PasteReport.noop)
  | _, none => some (st, σ, PasteReport.noop)
  | _ :: _, some mode =>
    let dest := match selected with
      | [] => st.rootPath
      | d :: _ => if isDir σ d then d else pathParent d
    if ¬ (pexists σ dest ∧ isDir σ dest) then some (st, σ, PasteReport.invalidDest)
    else
      match pasteLoop mode dest fuel st.clipPaths σ 0 [] [] with
      | none => none
      | some (σ', n, errs, maps) =>
        let nm' := maps.foldl (fun nm sd => updateNameMapEntry resolve nm sd.1 sd.2) st.nameMap
        let st1 := { st with nameMap := nm' }
        let st2 :=
          if mode = ClipMode.cut then
            { st1 with cutMarks := [], clipPaths := [], clipMode := none }
          else st1
        some (refresh σ' resolve st2, σ', PasteReport.done n errs)

/-! ### Well-formedness of a materialized tree

`wfI σ resolve nm p t` says the subtree `t` sits at path `p` and is one the
widget can materialize over the (unchanged) filesystem `σ`: a directory
node either still holds the lazy placeholder or holds exactly one child
per sorted directory entry, recursively well-formed; a non-directory node
has no children. -/

mutual
def wfI (σ : FS) (resolve : Path → Path) (nm : List (Path × String)) :
    Path → TItem → Bool
  | _, .placeholder => false
  | p, .node q _ ch =>
    decide (q = p) &&
    (if isDir σ p then
       (if isPlaceholderList ch then true
        else wfChildren σ resolve nm (iterDirectory σ resolve nm p) ch)
     else ch.isEmpty)

def wfChildren (σ : FS) (resolve : Path → Path) (nm : List (Path × String)) :
    List Path → List TItem → Bool
  | [], [] => true
  | q :: qs, c :: cs => wfI σ resolve nm q c && wfChildren σ resolve nm qs cs
  | [], _ :: _ => false
  | _ :: _, [] => false
end

mutual
/-- Open-connectedness: below a closed node every node is closed (an open
node all of whose ancestors are open is exactly a node kept open by this
invariant). -/
def ocI : TItem → Bool
  | .placeholder => true
  | .node _ o ch => if o then ocL ch else (opensL ch).isEmpty

def ocL : List TItem → Bool
  | [] => true
  | t :: ts => ocI t && ocL ts
end

/-- Whether the root node of a subtree carries the open flag. -/
def rootIsOpen : TItem → Bool
  | .placeholder => false
  | .node _ o _ => o

/-- Reachability along sorted-listing children whose paths are all in the
snapshot `S`: the set of directories `set_expansion_state S` re-opens
below a starting node. -/
inductive Conn (σ : FS) (resolve : Path → Path) (nm : List (Path × String))
    (S : List Path) : Path → Path → Prop
  | refl (q : Path) : q ∈ S → Conn σ resolve nm S q q
  | step {q r r' : Path} : Conn σ resolve nm S q r →
      r' ∈ iterDirectory σ resolve nm r → r' ∈ S → Conn σ resolve nm S q r'

/-! ### Concrete scenarios used as counterexamples and witnesses -/

/-- Filesystem `r/ ⊃ a/ ⊃ b/` (all directories). -/
def fsRAB : FS := ⟨[(["r"], true), (["r", "a"], true), (["r", "a", "b"], true)], [], []⟩

/-- Tree state with root `r` open, `a` materialized but closed, and the
deeper node `b` open: reachable by expanding `r`, `a`, opening `b`, then
collapsing `a`. -/
def treeHiddenOpen : TItem :=
  .node ["r"] true [.node ["r", "a"] false [.node ["r", "a", "b"] true [.placeholder]]]

/-- Widget state around `treeHiddenOpen`. -/
def stHiddenOpen : FBState := ⟨["r"], [treeHiddenOpen], [], [], none, []⟩

/-- The same tree with `a` open as well: the open set is connected. -/
def treeConnOpen : TItem :=
  .node ["r"] true [.node ["r", "a"] true [.node ["r", "a", "b"] true [.placeholder]]]

/-- Widget state around `treeConnOpen`. -/
def stConnOpen : FBState := ⟨["r"], [treeConnOpen], [], [], none, []⟩

/-- Destination directory `d/` already containing `a.txt`. -/
def fsPasteOne : FS := ⟨[(["d"], true), (["d", "a.txt"], false)], [], []⟩

/-- Destination directory `d/` containing `a.txt` and `a (1).txt`. -/
def fsPasteTwo : FS :=
  ⟨[(["d"], true), (["d", "a.txt"], false), (["d", "a (1).txt"], false)], [], []⟩

/-- Filesystem `r/` containing a subdirectory `s/` holding `x.txt`. -/
def fsCutCopy : FS := ⟨[(["r"], true), (["r", "s"], true), (["r", "s", "x.txt"], false)], [], []⟩

/-- Widget state on `fsCutCopy` with `x.txt` held in the clipboard in cut
mode (as left by `_set_clipboard('cut')` on that selection). -/
def stCutReady : FBState :=
  setClipboard (refresh fsCutCopy id ⟨["r"], [], [], [], none, []⟩) ClipMode.cut
    [["r", "s", "x.txt"]]

/-- Widget state whose cut clipboard holds only a path that no longer
exists on disk. -/
def stCutGone : FBState := ⟨["r"], [], [], [["r", "gone"]], some ClipMode.cut, []⟩

/-- Widget state with `x.txt` held in the clipboard in copy mode. -/
def stCopyReady : FBState :=
  ⟨["r"], [], [], [["r", "s", "x.txt"]], some ClipMode.copy, []⟩

/-- A filesystem with one root directory and a directory whose listing
raises (`m/` is in the failing set). -/
def fsFailingList : FS := ⟨[(["r"], true), (["r", "m"], true)], [["r", "m"]], []⟩

/-! ## Theorems -/

/-! ### C1: the natural sort key is totally comparable -/

theorem natKey_elem_shape {s : String} {e : KeyElem} (he : e ∈ naturalSortKey s) :
    (∃ n, e = (0, PyVal.vint n)) ∨ (∃ cs, e = (1, PyVal.vstr cs)) := by
  unfold naturalSortKey at he
  simp only [List.mem_map] at he
  obtain ⟨r, -, rfl⟩ := he
  cases r with
  | nil => exact Or.inr ⟨[], rfl⟩
  | cons c rest =>
    by_cases hd : c.isDigit
    · simp only [hd, if_true]
      exact Or.inl ⟨_, rfl⟩
    · simp only [hd, if_false]
      exact Or.inr ⟨_, rfl⟩

theorem cmpKeyElem_isSome_of_shapes {a b : KeyElem}
    (ha : (∃ n, a = (0, PyVal.vint n)) ∨ (∃ cs, a = (1, PyVal.vstr cs)))
    (hb : (∃ n, b = (0, PyVal.vint n)) ∨ (∃ cs, b = (1, PyVal.vstr cs))) :
    (cmpKeyElem a b).isSome = true := by
  rcases ha with ⟨n, rfl⟩ | ⟨cs, rfl⟩ <;> rcases hb with ⟨m, rfl⟩ | ⟨ds, rfl⟩ <;>
    simp [cmpKeyElem, cmpPyVal, compare, compareOfLessAndEq]

theorem keyCmp_isSome (k1 k2 : List KeyElem)
    (h : ∀ a ∈ k1, ∀ b ∈ k2, (cmpKeyElem a b).isSome = true) :
    (keyCmp k1 k2).isSome = true := by
  induction k1 generalizing k2 with
  | nil => cases k2 <;> rfl
  | cons a as ih =>
    cases k2 with
    | nil => rfl
    | cons b bs =>
      have hab := h a (List.mem_cons_self a as) b (List.mem_cons_self b bs)
      rw [keyCmp]
      cases hcmp : cmpKeyElem a b with
      | none => rw [hcmp] at hab; simp at hab
      | some o =>
        cases o with
        | eq =>
          exact ih bs fun x hx y hy =>
            h x (List.mem_cons_of_mem a hx) y (List.mem_cons_of_mem b hy)
        | lt => rfl
        | gt => rfl

/-- C1: the natural-sort comparator used for directory listings is total
and never raises: for every pair of name strings, the keys built by
`_natural_sort_key` compare without a `TypeError` (modelled as `none`),
and under this ordering `"file2" < "file10" < "file_a"`. -/
theorem c1_natural_sort_total :
    (∀ s t : String, (keyCmp (naturalSortKey s) (naturalSortKey t)).isSome = true) ∧
    keyCmp (naturalSortKey "file2") (naturalSortKey "file10") = some Ordering.lt ∧
    keyCmp (naturalSortKey "file10") (naturalSortKey "file_a") = some Ordering.lt := by
  refine ⟨fun s t => ?_, by decide, by decide⟩
  exact keyCmp_isSome _ _ fun a ha b hb =>
    cmpKeyElem_isSome_of_shapes (natKey_elem_shape ha) (natKey_elem_shape hb)

/-! ### C3: trailing space / trailing period

The source strips the candidate first (`name = name.strip()`), so a name
given with a trailing space is validated as its trimmed form and can be
accepted; a trailing period survives the strip and is always rejected. -/

theorem getLast?_dropWhile_of_neg {α : Type _} {p : α → Bool} {a : α} (hpa : p a = false) :
    ∀ l : List α, l.getLast? = some a → (l.dropWhile p).getLast? = some a := by
  intro l
  induction l with
  | nil => intro h; simp at h
  | cons c cs ih =>
    intro h
    cases cs with
    | nil =>
      simp only [List.getLast?_singleton, Option.some.injEq] at h
      subst h
      simp [List.dropWhile, hpa]
    | cons d ds =>
      rw [List.getLast?_cons_cons] at h
      rw [List.dropWhile_cons]
      by_cases hc : p c = true
      · simp only [hc, if_true]
        exact ih h
      · rw [if_neg hc, List.getLast?_cons_cons]
        exact h

theorem pyStrip_getLast_dot {name : String} (h : name.toList.getLast? = some '.') :
    (pyStrip name).toList.getLast? = some '.' ∧ ¬ pyStrip name = "" := by
  have hdot : isPySpace '.' = false := by decide
  have hm : ((name.toList.dropWhile isPySpace).reverse).head? = some '.' := by
    rw [List.head?_reverse]
    exact getLast?_dropWhile_of_neg hdot _ h
  rcases hrev : (name.toList.dropWhile isPySpace).reverse with _ | ⟨c, cs⟩
  · rw [hrev] at hm; simp at hm
  · rw [hrev] at hm
    simp only [List.head?_cons, Option.some.injEq] at hm
    subst hm
    have hres : pyStrip name = ⟨(('.' :: cs).dropWhile isPySpace).reverse⟩ := by
      rw [pyStrip, hrev]
    rw [List.dropWhile_cons, hdot] at hres
    simp only [Bool.false_eq_true, if_false, List.reverse_cons] at hres
    constructor
    · rw [hres]
      exact List.getLast?_concat _
    · rw [hres]
      intro hempty
      have := congrArg String.toList hempty
      simp at this

/-- C3 (counterexample to the claim as stated): `"a "` ends with a trailing
space, yet `_validate_name` accepts it in a parent directory with no entry
named `"a"`, because the name is stripped before any check. -/
theorem c3_counterexample : validateName (fun _ => false) "a " = none := by decide

/-- C3 (amended): for every candidate name that, as given, ends with a
trailing period, `_validate_name` returns an error; a trailing space is
removed by the initial strip, so it alone does not make the name
invalid. -/
theorem c3_trailing_period_invalid (exists_ : String → Bool) (name : String)
    (h : name.toList.getLast? = some '.') :
    (validateName exists_ name).isSome = true := by
  obtain ⟨hlast, hne⟩ := pyStrip_getLast_dot h
  unfold validateName validateStripped
  split_ifs with h1 h2 h3 h4 <;> try rfl
  exact absurd (Or.inr (by simpa [endsWithChar] using hlast)) h3

/-- Witness for C3: `"foo."` ends with a period and is rejected. -/
theorem c3_witness :
    "foo.".toList.getLast? = some '.' ∧
      (validateName (fun _ => false) "foo.").isSome = true :=
  ⟨by decide, c3_trailing_period_invalid (fun _ => false) "foo." (by decide)⟩

/-! ### C4: reserved names, invalid characters, collisions, valid names -/

theorem mem_pyStrip_of_mem {c : Char} {s : String} (hws : isPySpace c = false)
    (hc : c ∈ s.toList) : c ∈ (pyStrip s).toList := by
  have hsub : ∀ (l : List Char), c ∈ l → c ∈ l.dropWhile isPySpace := by
    intro l hl
    induction l with
    | nil => simp at hl
    | cons d ds ih =>
      rw [List.dropWhile_cons]
      by_cases hd : isPySpace d = true
      · simp only [hd, if_true]
        rcases List.mem_cons.mp hl with rfl | hl'
        · rw [hd] at hws; simp at hws
        · exact ih hl'
      · rw [if_neg hd]
        exact hl
  show c ∈ ((s.toList.dropWhile isPySpace).reverse.dropWhile isPySpace).reverse
  rw [List.mem_reverse]
  exact hsub _ (by rw [List.mem_reverse]; exact hsub _ hc)

/-- C4: `_validate_name` returns the reserved-name error for `"CON.txt"`
(regardless of the filesystem); the invalid-character error for any name
containing one of `<>:"/\|?*`; and, for a name that passes the earlier
checks unchanged by stripping, the collision error exactly when an entry
already exists at `parent_dir / name`, and no error otherwise. -/
theorem c4_validate_checks :
    (∀ exists_ : String → Bool,
      validateName exists_ "CON.txt" = some "'CON.txt' is a reserved system name.") ∧
    (∀ (exists_ : String → Bool) (name : String) (c : Char),
      c ∈ INVALID_FILENAME_CHARS.toList → c ∈ name.toList →
      validateName exists_ name =
        some ("Name contains invalid characters: " ++ INVALID_FILENAME_CHARS)) ∧
    (∀ (exists_ : String → Bool) (name : String),
      pyStrip name = name → ¬ name = "" →
      (INVALID_FILENAME_CHARS.toList.any fun c => name.toList.contains c) = false →
      RESERVED_FILENAMES.contains (pyUpper (pyStem name)) = false →
      endsWithChar name ' ' = false → endsWithChar name '.' = false →
      (exists_ name = true →
        validateName exists_ name = some ("An item named '" ++ name ++ "' already exists.")) ∧
      (exists_ name = false → validateName exists_ name = none)) := by
  refine ⟨fun exists_ => rfl, ?_, ?_⟩
  · intro exists_ name c hcchars hcname
    have hws : isPySpace c = false := by
      have hlist : INVALID_FILENAME_CHARS.toList =
          ['<', '>', ':', '"', '/', '\\', '|', '?', '*'] := rfl
      rw [hlist] at hcchars
      simp only [List.mem_cons, List.not_mem_nil, or_false] at hcchars
      rcases hcchars with rfl | rfl | rfl | rfl | rfl | rfl | rfl | rfl | rfl <;> decide
    have hmem : c ∈ (pyStrip name).toList := mem_pyStrip_of_mem hws hcname
    have hne : ¬ pyStrip name = "" := by
      intro hempty
      rw [hempty] at hmem
      simp at hmem
    have hany : (INVALID_FILENAME_CHARS.toList.any
        fun d => (pyStrip name).toList.contains d) = true := by
      rw [List.any_eq_true]
      exact ⟨c, hcchars, List.elem_eq_true_of_mem hmem⟩
    unfold validateName validateStripped
    rw [if_neg hne, if_pos hany]
  · intro exists_ name hstrip hne hinv hres hsp hdot
    unfold validateName validateStripped
    rw [hstrip, if_neg hne, hinv, hres]
    simp only [Bool.false_eq_true, if_false]
    rw [if_neg (by rw [hsp, hdot]; simp)]
    constructor
    · intro hex
      rw [if_pos hex]
    · intro hex
      rw [if_neg (by rw [hex]; simp)]

/-- Witness for C4: the spec's four probe inputs behave as claimed. -/
theorem c4_witness :
    validateName (fun _ => false) "CON.txt" = some "'CON.txt' is a reserved system name." ∧
    validateName (fun _ => false) "a/b" =
      some ("Name contains invalid characters: " ++ INVALID_FILENAME_CHARS) ∧
    validateName (fun n => n == "existing.txt") "existing.txt" =
      some "An item named 'existing.txt' already exists." ∧
    validateName (fun _ => false) "ok.txt" = none :=
  ⟨c4_validate_checks.1 (fun _ => false),
   c4_validate_checks.2.1 (fun _ => false) "a/b" '/' (by decide) (by decide),
   (c4_validate_checks.2.2 (fun n => n == "existing.txt") "existing.txt"
      (by decide) (by decide) (by decide) (by decide) (by decide) (by decide)).1 rfl,
   (c4_validate_checks.2.2 (fun _ => false) "ok.txt"
      (by decide) (by decide) (by decide) (by decide) (by decide) (by decide)).2 rfl⟩

/-! ### C5: paste target resolution and `" (N)"` conflict renaming -/

theorem conflictLoop_spec (σ : FS) (dest : Path) (sname : String) :
    ∀ (f c : Nat) (r : Path), conflictLoop σ dest sname f c = some r →
      ∃ N, c ≤ N ∧ r = dest ++ [conflictName sname N] ∧
        pexists σ (dest ++ [conflictName sname N]) = false ∧
        ∀ k, c ≤ k → k < N → pexists σ (dest ++ [conflictName sname k]) = true := by
  intro f
  induction f with
  | zero => intro c r h; exact absurd h (by simp [conflictLoop])
  | succ f ih =>
    intro c r h
    rw [conflictLoop] at h
    by_cases hex : pexists σ (dest ++ [conflictName sname c]) = true
    · rw [if_pos hex] at h
      obtain ⟨N, hcN, hr, hfree, htaken⟩ := ih (c + 1) r h
      refine ⟨N, by omega, hr, hfree, fun k hk1 hk2 => ?_⟩
      by_cases hkc : k = c
      · rw [hkc]; exact hex
      · exact htaken k (by omega) hk2
    · rw [if_neg hex] at h
      refine ⟨c, Nat.le_refl c, (Option.some.injEq _ _).mp h.symm, ?_, fun k hk1 hk2 => by omega⟩
      rw [Bool.not_eq_true] at hex
      exact hex

/-- C5: on paste, each source's target is `destination / sourceName`; when
that target already exists the chosen name is the source stem with
`" (N)"` appended before the extension, `N` being the least counter from 1
whose candidate is free — so pasting `a.txt` into a directory already
containing `a.txt` yields `a (1).txt`, and a second paste `a (2).txt`. -/
theorem c5_paste_conflict_renaming :
    (∀ (σ : FS) (dest : Path) (sname : String) (fuel : Nat),
      pexists σ (dest ++ [sname]) = false →
      resolveTarget σ dest sname fuel = some (dest ++ [sname])) ∧
    (∀ (σ : FS) (dest : Path) (sname : String) (fuel : Nat) (r : Path),
      pexists σ (dest ++ [sname]) = true →
      resolveTarget σ dest sname fuel = some r →
      ∃ N, 1 ≤ N ∧ r = dest ++ [conflictName sname N] ∧
        pexists σ (dest ++ [conflictName sname N]) = false ∧
        ∀ k, 1 ≤ k → k < N → pexists σ (dest ++ [conflictName sname k]) = true) ∧
    resolveTarget fsPasteOne ["d"] "a.txt" 10 = some ["d", "a (1).txt"] ∧
    resolveTarget fsPasteTwo ["d"] "a.txt" 10 = some ["d", "a (2).txt"] := by
  refine ⟨fun σ dest sname fuel h => ?_, fun σ dest sname fuel r h hr => ?_, by decide, by decide⟩
  · rw [resolveTarget, h]
    simp
  · rw [resolveTarget, if_pos h] at hr
    exact conflictLoop_spec σ dest sname fuel 1 r hr

/-- Witness for C5: both branches at concrete inputs. -/
theorem c5_witness :
    resolveTarget fsPasteOne ["d"] "b.txt" 10 = some ["d", "b.txt"] ∧
    (∃ N, 1 ≤ N ∧ ["d", "a (1).txt"] = ["d"] ++ [conflictName "a.txt" N] ∧
      pexists fsPasteOne (["d"] ++ [conflictName "a.txt" N]) = false ∧
      ∀ k, 1 ≤ k → k < N → pexists fsPasteOne (["d"] ++ [conflictName "a.txt" k]) = true) :=
  ⟨c5_paste_conflict_renaming.1 fsPasteOne ["d"] "b.txt" 10 (by decide),
   c5_paste_conflict_renaming.2.1 fsPasteOne ["d"] "a.txt" 10 ["d", "a (1).txt"]
     (by decide) (by decide)⟩

/-! ### C7: per-item failures never abort the batch; report truncation -/

theorem pasteLoop_exhausts (mode : ClipMode) (dest : Path) (fuel : Nat) :
    ∀ (sources : List Path) (σ : FS) (n0 : Nat) (errs0 : List String)
      (maps0 : List (Path × Path)) (σ' : FS) (n : Nat) (errs : List String)
      (maps : List (Path × Path)),
      pasteLoop mode dest fuel sources σ n0 errs0 maps0 = some (σ', n, errs, maps) →
      n + errs.length = n0 + errs0.length + sources.length := by
  intro sources
  induction sources with
  | nil =>
    intro σ n0 errs0 maps0 σ' n errs maps h
    rw [pasteLoop] at h
    obtain ⟨rfl, rfl, rfl, rfl⟩ : σ' = σ ∧ n = n0 ∧ errs = errs0 ∧ maps = maps0 := by
      simpa using h.symm
    simp
  | cons s rest ih =>
    intro σ n0 errs0 maps0 σ' n errs maps h
    rw [pasteLoop] at h
    by_cases hex : pexists σ s = true
    · rw [if_neg (not_not_intro hex)] at h
      cases hres : resolveTarget σ dest (pathName s) fuel with
      | none => rw [hres] at h; simp at h
      | some dpath =>
        rw [hres] at h
        simp only [] at h
        cases htr : (match mode with
            | ClipMode.cut => moveFS σ s dpath
            | ClipMode.copy =>
              if isDir σ s then copyTreeFS σ s dpath else copyFileFS σ s dpath) with
        | ok σ2 =>
          rw [htr] at h
          have := ih _ _ _ _ _ _ _ _ h
          simp only [List.length_cons] at *
          omega
        | error e =>
          rw [htr] at h
          have := ih _ _ _ _ _ _ _ _ h
          simp only [List.length_append, List.length_cons, List.length_nil] at *
          omega
    · rw [if_pos hex] at h
      have := ih _ _ _ _ _ _ _ _ h
      simp only [List.length_append, List.length_cons, List.length_nil] at *
      omega

/-- C7: a per-item paste failure never aborts the batch — every source
contributes exactly one success or one collected error — and the final
report shows the success count with at most the first 5 error messages,
adding an `... and N more errors` suffix when more than 5 were
collected. -/
theorem c7_batch_failures_collected :
    (∀ (mode : ClipMode) (dest : Path) (fuel : Nat) (sources : List Path) (σ σ' : FS)
      (n : Nat) (errs : List String) (maps : List (Path × Path)),
      pasteLoop mode dest fuel sources σ 0 [] [] = some (σ', n, errs, maps) →
      n + errs.length = sources.length) ∧
    (∀ (n : Nat) (errs : List String), errs ≠ [] → errs.length ≤ 5 →
      buildPasteMsg n errs =
        some ("Pasted " ++ Nat.repr n ++ " item(s).\n\nErrors:\n"
          ++ String.intercalate "\n" errs)) ∧
    (∀ (n : Nat) (errs : List String), 5 < errs.length →
      buildPasteMsg n errs =
        some ("Pasted " ++ Nat.repr n ++ " item(s).\n\nErrors:\n"
          ++ String.intercalate "\n" (errs.take 5)
          ++ ("\n... and " ++ Nat.repr (errs.length - 5) ++ " more errors"))) := by
  refine ⟨fun mode dest fuel sources σ σ' n errs maps h => ?_, ?_, ?_⟩
  · have := pasteLoop_exhausts mode dest fuel sources σ 0 [] [] σ' n errs maps h
    simpa using this
  · intro n errs hne hlen
    rw [buildPasteMsg, if_neg (by simpa using hne),
      if_neg (by omega), List.take_of_length_le hlen]
    simp
  · intro n errs hlen
    have hne : ¬ errs.isEmpty = true := by
      cases errs with
      | nil => simp at hlen
      | cons e es => simp
    rw [buildPasteMsg, if_neg hne, if_pos hlen]

/-- Witness for C7: a 3-source batch with one missing source yields 2
successes and 1 collected error, and the two message shapes. -/
theorem c7_witness :
    2 + (["Source no longer exists: gone"] : List String).length =
      ([["r", "s", "x.txt"], ["r", "gone"], ["r", "s"]] : List Path).length ∧
    buildPasteMsg 1 ["e1"] = some "Pasted 1 item(s).\n\nErrors:\ne1" ∧
    buildPasteMsg 2 ["e1", "e2", "e3", "e4", "e5", "e6", "e7"] =
      some ("Pasted " ++ Nat.repr 2 ++ " item(s).\n\nErrors:\n"
        ++ String.intercalate "\n" (["e1", "e2", "e3", "e4", "e5", "e6", "e7"].take 5)
        ++ ("\n... and " ++ Nat.repr ((["e1", "e2", "e3", "e4", "e5", "e6", "e7"] : List String).length - 5)
            ++ " more errors")) :=
  ⟨c7_batch_failures_collected.1 ClipMode.copy ["r"] 10
      [["r", "s", "x.txt"], ["r", "gone"], ["r", "s"]] fsCutCopy
      ⟨[(["r"], true), (["r", "s"], true), (["r", "s", "x.txt"], false),
        (["r", "x.txt"], false), (["r", "s (1)"], true), (["r", "s (1)", "x.txt"], false)],
       [], []⟩
      2 ["Source no longer exists: gone"]
      [(["r", "s", "x.txt"], ["r", "x.txt"]), (["r", "s"], ["r", "s (1)"])] rfl,
   c7_batch_failures_collected.2.1 1 ["e1"] (by decide) (by decide),
   c7_batch_failures_collected.2.2 2 ["e1", "e2", "e3", "e4", "e5", "e6", "e7"] (by decide)⟩

/-! ### C8: `change_directory` error cases leave the state unchanged -/

/-- C8: `change_directory(path)` raises `FileNotFoundError` when the
resolved path does not exist and `NotADirectoryError` when it exists but
is not a directory — the widget state unchanged in either case (both
raises occur before `_root_path` is assigned) — and on an existing
directory it sets the root and performs the full rebuild (`refresh`). -/
theorem c8_change_directory (σ : FS) (resolve : Path → Path) (st : FBState) (p : Path) :
    (pexists σ (resolve p) = false →
      changeDirectory σ resolve st p = (st, some (FBError.fileNotFound (resolve p)))) ∧
    (pexists σ (resolve p) = true → isDir σ (resolve p) = false →
      changeDirectory σ resolve st p = (st, some (FBError.notADirectory (resolve p)))) ∧
    (pexists σ (resolve p) = true → isDir σ (resolve p) = true →
      changeDirectory σ resolve st p =
        (refresh σ resolve { st with rootPath := resolve p }, none)) := by
  refine ⟨fun h => ?_, fun h1 h2 => ?_, fun h1 h2 => ?_⟩
  · rw [changeDirectory, if_pos (by rw [h]; simp)]
  · rw [changeDirectory, if_neg (by rw [h1]; simp), if_pos (by rw [h2]; simp)]
  · rw [changeDirectory, if_neg (by rw [h1]; simp), if_neg (by rw [h2]; simp)]

/-- Witness for C8: a missing path, a file path, and a directory path. -/
theorem c8_witness :
    changeDirectory fsCutCopy id ⟨["r"], [], [], [], none, []⟩ ["nope"] =
      (⟨["r"], [], [], [], none, []⟩, some (FBError.fileNotFound ["nope"])) ∧
    changeDirectory fsCutCopy id ⟨["r"], [], [], [], none, []⟩ ["r", "s", "x.txt"] =
      (⟨["r"], [], [], [], none, []⟩, some (FBError.notADirectory ["r", "s", "x.txt"])) ∧
    changeDirectory fsCutCopy id ⟨["r"], [], [], [], none, []⟩ ["r"] =
      (refresh fsCutCopy id ⟨["r"], [], [], [], none, []⟩, none) :=
  ⟨(c8_change_directory fsCutCopy id ⟨["r"], [], [], [], none, []⟩ ["nope"]).1 rfl,
   (c8_change_directory fsCutCopy id ⟨["r"], [], [], [], none, []⟩ ["r", "s", "x.txt"]).2.1 rfl rfl,
   (c8_change_directory fsCutCopy id ⟨["r"], [], [], [], none, []⟩ ["r"]).2.2 rfl rfl⟩

/-! ### C9: listing failures yield an empty child list -/

/-- C9: when listing a directory raises a permission or I/O error, the
directory iteration returns `[]` instead of propagating, and expanding a
node for that directory just removes the placeholder and inserts no
children. -/
theorem c9_listing_failure (σ : FS) (resolve : Path → Path) (nm : List (Path × String))
    (p : Path) (err : String) (h : listdir σ p = Except.error err) :
    iterDirectory σ resolve nm p = [] ∧
    ∀ o : Bool, expandNode σ resolve nm (TItem.node p o [TItem.placeholder]) =
      TItem.node p o [] := by
  have hiter : iterDirectory σ resolve nm p = [] := by
    rw [iterDirectory, h]
  refine ⟨hiter, fun o => ?_⟩
  rw [expandNode, hiter]
  rfl

/-- Witness for C9: the failing directory `r/m` of `fsFailingList`. -/
theorem c9_witness :
    iterDirectory fsFailingList id [] ["r", "m"] = [] ∧
    ∀ o : Bool, expandNode fsFailingList id [] (TItem.node ["r", "m"] o [TItem.placeholder]) =
      TItem.node ["r", "m"] o [] :=
  c9_listing_failure fsFailingList id [] ["r", "m"] "Permission denied" rfl

/-! ### C6 / C10: clipboard lifecycle across paste -/

theorem menuPaste_cut_clears {σ : FS} {resolve : Path → Path} {st : FBState}
    {sel : List Path} {fuel : Nat} {st' : FBState} {σ' : FS} {n : Nat}
    {errs : List String} (hmode : st.clipMode = some ClipMode.cut)
    (h : menuPaste σ resolve st sel fuel = some (st', σ', PasteReport.done n errs)) :
    st'.clipPaths = [] ∧ st'.clipMode = none ∧ st'.cutMarks = [] ∧
    ∀ (σ2 : FS) (sel2 : List Path) (fuel2 : Nat),
      menuPaste σ2 resolve st' sel2 fuel2 = some (st', σ2, PasteReport.noop) := by
  rcases hcp : st.clipPaths with _ | ⟨s0, srest⟩
  · unfold menuPaste at h
    rw [hcp, hmode] at h
    simp at h
  · unfold menuPaste at h
    rw [hcp, hmode] at h
    dsimp only at h
    set dst := (match sel with
      | [] => st.rootPath
      | d :: _ => if isDir σ d = true then d else pathParent d) with hdst
    by_cases hdest : (pexists σ dst = true ∧ isDir σ dst = true)
    · rw [if_neg (not_not_intro hdest)] at h
      cases hpl : pasteLoop ClipMode.cut dst fuel (s0 :: srest) σ 0 [] [] with
      | none => rw [hpl] at h; exact absurd h (by simp)
      | some out =>
        obtain ⟨σ2, n2, errs2, maps2⟩ := out
        rw [hpl] at h
        dsimp only at h
        rw [if_pos (Eq.refl ClipMode.cut)] at h
        simp only [Option.some.injEq, Prod.mk.injEq, PasteReport.done.injEq] at h
        obtain ⟨hst, -, -⟩ := h
        subst hst
        exact ⟨rfl, rfl, rfl, fun σ3 sel3 fuel3 => rfl⟩
    · rw [if_pos hdest] at h
      simp at h

/-- C6: after a cut followed by a successful paste the clipboard is empty
(paths cleared, mode unset, cut marks removed) and any subsequent paste is
a no-op; after a copy followed by a successful paste the clipboard still
holds the same sources and mode, so a second paste performs the copy
again (shown on a concrete double copy-paste). -/
theorem c6_clipboard_lifecycle :
    (∀ (σ : FS) (resolve : Path → Path) (st : FBState) (sel : List Path) (fuel : Nat)
      (st' : FBState) (σ' : FS) (n : Nat) (errs : List String),
      st.clipMode = some ClipMode.cut →
      menuPaste σ resolve st sel fuel = some (st', σ', PasteReport.done n errs) →
      0 < n →
      st'.clipPaths = [] ∧ st'.clipMode = none ∧ st'.cutMarks = [] ∧
      ∀ (σ2 : FS) (sel2 : List Path) (fuel2 : Nat),
        menuPaste σ2 resolve st' sel2 fuel2 = some (st', σ2, PasteReport.noop)) ∧
    (∀ (σ : FS) (resolve : Path → Path) (st : FBState) (sel : List Path) (fuel : Nat)
      (st' : FBState) (σ' : FS) (n : Nat) (errs : List String),
      st.clipMode = some ClipMode.copy →
      menuPaste σ resolve st sel fuel = some (st', σ', PasteReport.done n errs) →
      st'.clipPaths = st.clipPaths ∧ st'.clipMode = some ClipMode.copy) ∧
    (∃ (st1 st2 : FBState) (σ1 σ2 : FS),
      menuPaste fsCutCopy id stCopyReady [] 9 = some (st1, σ1, PasteReport.done 1 []) ∧
      st1.clipPaths = stCopyReady.clipPaths ∧ st1.clipMode = some ClipMode.copy ∧
      menuPaste σ1 id st1 [] 9 = some (st2, σ2, PasteReport.done 1 [])) := by
  refine ⟨fun σ resolve st sel fuel st' σ' n errs hmode h _ =>
    menuPaste_cut_clears hmode h, ?_, ?_⟩
  · intro σ resolve st sel fuel st' σ' n errs hmode h
    rcases hcp : st.clipPaths with _ | ⟨s0, srest⟩
    · unfold menuPaste at h
      rw [hcp, hmode] at h
      simp at h
    · unfold menuPaste at h
      rw [hcp, hmode] at h
      dsimp only at h
      set dst := (match sel with
        | [] => st.rootPath
        | d :: _ => if isDir σ d = true then d else pathParent d) with hdst
      by_cases hdest : (pexists σ dst = true ∧ isDir σ dst = true)
      · rw [if_neg (not_not_intro hdest)] at h
        cases hpl : pasteLoop ClipMode.copy dst fuel (s0 :: srest) σ 0 [] [] with
        | none => rw [hpl] at h; exact absurd h (by simp)
        | some out =>
          obtain ⟨σ2, n2, errs2, maps2⟩ := out
          rw [hpl] at h
          dsimp only at h
          rw [if_neg (by simp)] at h
          simp only [Option.some.injEq, Prod.mk.injEq, PasteReport.done.injEq] at h
          obtain ⟨hst, -, -⟩ := h
          subst hst
          exact ⟨rfl, rfl⟩
      · rw [if_pos hdest] at h
        simp at h
  · exact ⟨_, _, _, _, rfl, rfl, rfl, rfl⟩

/-- Witness for C6: a concrete cut-paste that succeeds, whose clipboard is
cleared and whose follow-up paste is a no-op. -/
theorem c6_witness :
    ∃ (st' : FBState) (σ' : FS),
      menuPaste fsCutCopy id stCutReady [] 9 = some (st', σ', PasteReport.done 1 []) ∧
      st'.clipPaths = [] ∧ st'.clipMode = none ∧ st'.cutMarks = [] ∧
      ∀ (σ2 : FS) (sel2 : List Path) (fuel2 : Nat),
        menuPaste σ2 id st' sel2 fuel2 = some (st', σ2, PasteReport.noop) := by
  refine ⟨_, _, rfl, ?_⟩
  exact c6_clipboard_lifecycle.1 fsCutCopy id stCutReady [] 9 _ _ 1 [] rfl rfl Nat.one_pos

/-- C10: a paste in cut mode that reaches the transfer loop clears the
clipboard regardless of the per-item outcomes — even when zero items were
transferred — and a subsequent paste is a no-op. -/
theorem c10_cut_paste_always_clears
    (σ : FS) (resolve : Path → Path) (st : FBState) (sel : List Path) (fuel : Nat)
    (st' : FBState) (σ' : FS) (n : Nat) (errs : List String)
    (hmode : st.clipMode = some ClipMode.cut)
    (h : menuPaste σ resolve st sel fuel = some (st', σ', PasteReport.done n errs)) :
    st'.clipPaths = [] ∧ st'.clipMode = none ∧ st'.cutMarks = [] ∧
    ∀ (σ2 : FS) (sel2 : List Path) (fuel2 : Nat),
      menuPaste σ2 resolve st' sel2 fuel2 = some (st', σ2, PasteReport.noop) :=
  menuPaste_cut_clears hmode h

/-- Witness for C10: a cut paste whose only source is missing transfers
zero items, yet the clipboard is cleared and the next paste is a no-op. -/
theorem c10_witness :
    ∃ (st' : FBState) (σ' : FS),
      menuPaste fsCutCopy id stCutGone [] 9 =
        some (st', σ', PasteReport.done 0 ["Source no longer exists: gone"]) ∧
      st'.clipPaths = [] ∧ st'.clipMode = none ∧ st'.cutMarks = [] ∧
      ∀ (σ2 : FS) (sel2 : List Path) (fuel2 : Nat),
        menuPaste σ2 id st' sel2 fuel2 = some (st', σ2, PasteReport.noop) := by
  refine ⟨_, _, rfl, ?_⟩
  exact c10_cut_paste_always_clears fsCutCopy id stCutGone [] 9 _ _ 0
    ["Source no longer exists: gone"] rfl rfl

/-! ### C2: expansion state across refresh

Infrastructure: membership facts about the sorted listing, the
reachability relation `Conn`, an induction principle for the nested rose
tree, and the characterization of `expand_matching` on freshly rebuilt
nodes. -/

theorem mem_insSorted {α : Type _} (le : α → α → Bool) (a x : α) :
    ∀ l : List α, x ∈ insSorted le a l ↔ x = a ∨ x ∈ l := by
  intro l
  induction l with
  | nil => simp [insSorted]
  | cons y ys ih =>
    rw [insSorted]
    by_cases hle : le a y = true
    · simp [hle]
    · simp only [if_neg hle, List.mem_cons, ih]
      tauto

theorem mem_insSortBy {α : Type _} (le : α → α → Bool) (x : α) :
    ∀ l : List α, x ∈ insSortBy le l ↔ x ∈ l := by
  intro l
  induction l with
  | nil => simp [insSortBy]
  | cons y ys ih => rw [insSortBy, mem_insSorted, ih, List.mem_cons]

theorem mem_iterDirectory {σ : FS} {resolve : Path → Path} {nm : List (Path × String)}
    {p r : Path} (h : r ∈ iterDirectory σ resolve nm p) : r ∈ childrenP σ p := by
  rw [iterDirectory] at h
  cases hl : listdir σ p with
  | error e => rw [hl] at h; simp at h
  | ok es =>
    rw [hl] at h
    rw [mem_insSortBy] at h
    rw [listdir] at hl
    by_cases hf : σ.failing.contains p = true
    · rw [if_pos hf] at hl; cases hl
    · rw [if_neg hf] at hl
      obtain rfl : childrenP σ p = es := by injection hl
      exact h

theorem childrenP_length {σ : FS} {p r : Path} (h : r ∈ childrenP σ p) :
    r.length = p.length + 1 ∧ p.isPrefixOf r = true ∧ ∃ b, (r, b) ∈ σ.entries := by
  rw [childrenP] at h
  simp only [List.mem_map, List.mem_filter] at h
  obtain ⟨e, ⟨he, hcond⟩, rfl⟩ := h
  simp only [Bool.and_eq_true, decide_eq_true_eq] at hcond
  exact ⟨hcond.1, hcond.2, e.2, he⟩

theorem entry_length_le_max {σ : FS} {r : Path} {b : Bool} (h : (r, b) ∈ σ.entries) :
    r.length ≤ maxPathLen σ := by
  rw [maxPathLen]
  have hr : r.length ∈ σ.entries.map (fun e => e.1.length) :=
    List.mem_map.mpr ⟨(r, b), h, rfl⟩
  revert hr
  generalize σ.entries.map (fun e => e.1.length) = l
  intro hr
  induction l with
  | nil => simp at hr
  | cons x xs ih =>
    rw [List.foldr_cons]
    rcases List.mem_cons.mp hr with rfl | hr'
    · exact Nat.le_max_left _ _
    · exact Nat.le_trans (ih hr') (Nat.le_max_right _ _)

theorem childrenP_eq_nil_of_not_dir {σ : FS} {q : Path}
    (hdirs : ∀ e ∈ σ.entries, pathParent e.1 = [] ∨ isDir σ (pathParent e.1) = true)
    (hqne : q ≠ []) (hq : isDir σ q = false) : childrenP σ q = [] := by
  by_contra hne
  obtain ⟨r, hr⟩ := List.exists_mem_of_ne_nil _ hne
  obtain ⟨hlen, hpre, b, hentry⟩ := childrenP_length hr
  obtain ⟨t, rfl⟩ := List.isPrefixOf_iff_prefix.mp hpre
  have ht1 : t.length = 1 := by
    rw [List.length_append] at hlen
    omega
  obtain ⟨x, rfl⟩ : ∃ x, t = [x] := by
    cases t with
    | nil => simp at ht1
    | cons x xs =>
      cases xs with
      | nil => exact ⟨x, rfl⟩
      | cons y ys => simp at ht1
  rcases hdirs (q ++ [x], b) hentry with hnil | hdir
  · rw [pathParent, List.dropLast_concat] at hnil
    exact hqne hnil
  · rw [pathParent, List.dropLast_concat] at hdir
    rw [hdir] at hq
    cases hq

theorem iterDirectory_eq_nil_of_childrenP {σ : FS} {resolve : Path → Path}
    {nm : List (Path × String)} {q : Path} (h : childrenP σ q = []) :
    iterDirectory σ resolve nm q = [] := by
  rw [iterDirectory, listdir]
  by_cases hf : σ.failing.contains q = true
  · rw [if_pos hf]
  · rw [if_neg hf, h]
    rfl

theorem conn_head_mem {σ : FS} {resolve : Path → Path} {nm : List (Path × String)}
    {S : List Path} {q p : Path} (h : Conn σ resolve nm S q p) : q ∈ S := by
  induction h with
  | refl hq => exact hq
  | step _ _ _ ih => exact ih

theorem conn_last_mem {σ : FS} {resolve : Path → Path} {nm : List (Path × String)}
    {S : List Path} {q p : Path} (h : Conn σ resolve nm S q p) : p ∈ S := by
  cases h with
  | refl hq => exact hq
  | step _ _ hr => exact hr

theorem conn_cons {σ : FS} {resolve : Path → Path} {nm : List (Path × String)}
    {S : List Path} {q r p : Path} (hq : q ∈ S)
    (hr : r ∈ iterDirectory σ resolve nm q) (h : Conn σ resolve nm S r p) :
    Conn σ resolve nm S q p := by
  induction h with
  | refl hx => exact Conn.step (Conn.refl q hq) hr hx
  | step _ hstep hmem ih => exact Conn.step ih hstep hmem

theorem conn_unfold {σ : FS} {resolve : Path → Path} {nm : List (Path × String)}
    {S : List Path} {q p : Path} (h : Conn σ resolve nm S q p) :
    p = q ∨ ∃ r ∈ iterDirectory σ resolve nm q, Conn σ resolve nm S r p := by
  induction h with
  | refl _ => exact Or.inl rfl
  | step hc hstep hmem ih =>
    rcases ih with rfl | ⟨r0, hr0, hconn⟩
    · exact Or.inr ⟨_, hstep, Conn.refl _ hmem⟩
    · exact Or.inr ⟨r0, hr0, Conn.step hconn hstep hmem⟩

theorem mem_opensL {p : Path} : ∀ ts : List TItem,
    p ∈ opensL ts ↔ ∃ t ∈ ts, p ∈ opensI t := by
  intro ts
  induction ts with
  | nil => simp [opensL]
  | cons t ts ih =>
    rw [opensL, List.mem_append, ih]
    simp

theorem opensL_singleton (t : TItem) : opensL [t] = opensI t := by
  rw [opensL, opensL, List.append_nil]

theorem isPlaceholderList_iff : ∀ l : List TItem,
    isPlaceholderList l = true ↔ l = [TItem.placeholder] := by
  intro l
  cases l with
  | nil => simp [isPlaceholderList]
  | cons t ts =>
    cases t with
    | placeholder =>
      cases ts with
      | nil => simp [isPlaceholderList]
      | cons u us => simp [isPlaceholderList]
    | node p o ch => simp [isPlaceholderList]

theorem titem_induction {P : TItem → Prop} (hp : P TItem.placeholder)
    (hn : ∀ p o ch, (∀ c ∈ ch, P c) → P (TItem.node p o ch)) : ∀ t, P t
  | TItem.placeholder => hp
  | TItem.node p o ch => hn p o ch fun c hc =>
      have : sizeOf c < sizeOf (TItem.node p o ch) := by
        have h1 := List.sizeOf_lt_of_mem hc
        simp only [TItem.node.sizeOf_spec]
        omega
      titem_induction hp hn c
termination_by t => sizeOf t

theorem expandMatching_fresh_opens (σ : FS) (resolve : Path → Path)
    (nm : List (Path × String)) (S : List Path)
    (hdirs : ∀ e ∈ σ.entries, pathParent e.1 = [] ∨ isDir σ (pathParent e.1) = true) :
    ∀ f : Nat, ∀ q : Path, 1 ≤ f → maxPathLen σ + 2 ≤ q.length + f → q ≠ [] →
      ∀ p, p ∈ opensI (expandMatching σ resolve nm S f (mkNode σ q false)) ↔
        Conn σ resolve nm S q p := by
  intro f
  induction f with
  | zero => intro q h1; omega
  | succ f ih =>
    intro q _ h2 hqne p
    by_cases hqS : q ∈ S
    · by_cases hdir : isDir σ q = true
      · rw [mkNode, if_pos hdir]
        simp only [expandMatching, if_pos hqS, expandNode, isPlaceholderList, if_true]
        rw [List.map_map]
        have key : ∀ r ∈ iterDirectory σ resolve nm q,
            (p ∈ opensI (expandMatching σ resolve nm S f (mkNode σ r false)) ↔
              Conn σ resolve nm S r p) := by
          intro r hr
          obtain ⟨hlen, -, b, hentry⟩ := childrenP_length (mem_iterDirectory hr)
          have hle := entry_length_le_max hentry
          have hrne : r ≠ [] := by
            intro hnil
            rw [hnil] at hlen
            simp at hlen
          exact ih r (by omega) (by omega) hrne p
        simp only [opensI, if_true]
        constructor
        · intro hp
          rcases List.mem_append.mp hp with hp1 | hp2
          · have hpq : p = q := by simpa using hp1
            subst hpq
            exact Conn.refl _ hqS
          · obtain ⟨t, ht, hpt⟩ := (mem_opensL _).mp hp2
            obtain ⟨r, hr, rfl⟩ := List.mem_map.mp ht
            exact conn_cons hqS hr ((key r hr).mp hpt)
        · intro hconn
          rcases conn_unfold hconn with rfl | ⟨r, hr, hconn'⟩
          · exact List.mem_append.mpr (Or.inl (by simp))
          · refine List.mem_append.mpr (Or.inr ?_)
            rw [mem_opensL]
            exact ⟨_, List.mem_map.mpr ⟨r, hr, rfl⟩, (key r hr).mpr hconn'⟩
      · have hdir' : isDir σ q = false := by
          rw [Bool.not_eq_true] at hdir
          exact hdir
        have hnil : iterDirectory σ resolve nm q = [] :=
          iterDirectory_eq_nil_of_childrenP
            (childrenP_eq_nil_of_not_dir hdirs hqne hdir')
        rw [mkNode, hdir']
        simp only [Bool.false_eq_true, if_false]
        simp only [expandMatching, if_pos hqS, expandNode, isPlaceholderList]
        simp only [Bool.false_eq_true, if_false, List.map_nil]
        simp only [opensI, if_true, opensL, List.append_nil]
        constructor
        · intro hp
          have hpq : p = q := by simpa using hp
          subst hpq
          exact Conn.refl _ hqS
        · intro hconn
          rcases conn_unfold hconn with rfl | ⟨r, hr, -⟩
          · simp
          · rw [hnil] at hr
            simp at hr
    · simp only [mkNode, expandMatching, if_neg hqS]
      have hop : opensI (TItem.node q false (if isDir σ q then [TItem.placeholder] else [])) =
          [] := by
        by_cases hdir : isDir σ q = true
        · simp [opensI, opensL, hdir]
        · simp only [Bool.not_eq_true] at hdir
          simp [opensI, opensL, hdir]
      rw [hop]
      constructor
      · intro hp; simp at hp
      · intro hconn; exact absurd (conn_head_mem hconn) hqS

theorem ocL_mem : ∀ (ts : List TItem) (t : TItem), ocL ts = true → t ∈ ts → ocI t = true := by
  intro ts
  induction ts with
  | nil => intro t _ ht; simp at ht
  | cons u us ih =>
    intro t hoc ht
    rw [ocL, Bool.and_eq_true] at hoc
    rcases List.mem_cons.mp ht with rfl | ht'
    · exact hoc.1
    · exact ih t hoc.2 ht'

theorem wfChildren_opens (σ : FS) (resolve : Path → Path) (nm : List (Path × String))
    {p : Path} : ∀ (qs : List Path) (ch : List TItem),
    wfChildren σ resolve nm qs ch = true → p ∈ opensL ch →
    ∃ r c, r ∈ qs ∧ c ∈ ch ∧ wfI σ resolve nm r c = true ∧ p ∈ opensI c := by
  intro qs
  induction qs with
  | nil =>
    intro ch hwf hp
    cases ch with
    | nil => simp [opensL] at hp
    | cons c cs => simp [wfChildren] at hwf
  | cons q qs ih =>
    intro ch hwf hp
    cases ch with
    | nil => simp [opensL] at hp
    | cons c cs =>
      rw [wfChildren, Bool.and_eq_true] at hwf
      rw [opensL, List.mem_append] at hp
      rcases hp with hp1 | hp2
      · exact ⟨q, c, List.mem_cons_self _ _, List.mem_cons_self _ _, hwf.1, hp1⟩
      · obtain ⟨r, c', hr, hc', hwfc, hpc⟩ := ih cs hwf.2 hp2
        exact ⟨r, c', List.mem_cons_of_mem _ hr, List.mem_cons_of_mem _ hc', hwfc, hpc⟩

theorem wf_oc_opens_conn (σ : FS) (resolve : Path → Path) (nm : List (Path × String))
    (S : List Path) :
    ∀ t : TItem, ∀ q : Path, wfI σ resolve nm q t = true → ocI t = true →
      (∀ x, x ∈ opensI t → x ∈ S) → ∀ p, p ∈ opensI t → Conn σ resolve nm S q p := by
  intro t
  induction t using titem_induction with
  | hp => intro q hwf; simp [wfI] at hwf
  | hn p0 o ch IH =>
    intro q hwf hoc hsub p hp
    rw [wfI, Bool.and_eq_true, decide_eq_true_eq] at hwf
    obtain ⟨rfl, hwf2⟩ := hwf
    rw [opensI, List.mem_append] at hp
    rcases hp with hp1 | hp2
    · rcases ho : o with _ | _
      · rw [ho] at hp1; simp at hp1
      · rw [ho] at hp1
        have hpq : p = p0 := by simpa using hp1
        subst hpq
        refine Conn.refl _ (hsub p ?_)
        rw [opensI, ho]
        simp
    · rcases ho : o with _ | _
      · rw [ocI, ho] at hoc
        simp only [Bool.false_eq_true, if_false, List.isEmpty_iff] at hoc
        rw [hoc] at hp2
        simp at hp2
      · rw [ocI, ho, if_pos rfl] at hoc
        have hmemq : p0 ∈ opensI (TItem.node p0 o ch) := by
          rw [opensI, ho]
          simp
        by_cases hdir : isDir σ p0 = true
        · rw [if_pos hdir] at hwf2
          by_cases hph : isPlaceholderList ch = true
          · rw [(isPlaceholderList_iff ch).mp hph] at hp2
            simp [opensL, opensI] at hp2
          · rw [if_neg hph] at hwf2
            obtain ⟨r, c, hr, hc, hwfc, hpc⟩ :=
              wfChildren_opens σ resolve nm _ ch hwf2 hp2
            have hconn : Conn σ resolve nm S r p := by
              refine IH c hc r hwfc (ocL_mem ch c hoc hc) (fun x hx => hsub x ?_) p hpc
              rw [opensI, List.mem_append]
              exact Or.inr ((mem_opensL ch).mpr ⟨c, hc, hx⟩)
            exact conn_cons (hsub p0 hmemq) hr hconn
        · rw [if_neg hdir] at hwf2
          rw [List.isEmpty_iff] at hwf2
          rw [hwf2] at hp2
          simp [opensL] at hp2

theorem isPlaceholderList_map_mkNode (σ : FS) (l : List Path) :
    isPlaceholderList (l.map (fun q => mkNode σ q false)) = false := by
  cases l with
  | nil => rfl
  | cons q qs => rfl

/-- C2 (counterexample to the claim as stated): in the unchanged filesystem
`r/a/b`, a tree whose node `b` is open while its materialized ancestor `a`
is collapsed loses `b` from the expansion set across `refresh()` —
`get_expansion_state` collects open nodes under collapsed ancestors, but
`set_expansion_state` only recurses into children of matching nodes (and
the rebuilt root is always re-inserted open). -/
theorem c2_counterexample :
    ["r", "a", "b"] ∈ opensL stHiddenOpen.tree ∧
    ["r", "a", "b"] ∉ opensL (refresh fsRAB id stHiddenOpen).tree := by
  constructor
  · decide
  · decide

/-- C2 (amended): for a well-formed tree over the unchanged filesystem
whose root node is open and in which every open node's ancestors are open
(no open node hides below a collapsed one), `refresh()` is the identity on
the expansion set: the open paths reported after the rebuild-and-restore
are exactly those reported before. -/
theorem c2_expansion_identity (σ : FS) (resolve : Path → Path) (st : FBState) (t : TItem)
    (htree : st.tree = [t])
    (hdirs : ∀ e ∈ σ.entries, pathParent e.1 = [] ∨ isDir σ (pathParent e.1) = true)
    (hroot : isDir σ st.rootPath = true)
    (hwf : wfI σ resolve st.nameMap st.rootPath t = true)
    (hoc : ocI t = true)
    (hopen : rootIsOpen t = true) :
    ∀ p, p ∈ opensL (refresh σ resolve st).tree ↔ p ∈ opensL st.tree := by
  obtain ⟨rp0, tree0, nm0, cp0, cm0, marks0⟩ := st
  dsimp only at htree hroot hwf
  subst htree
  -- the root node of the old tree is an open node at the root path
  rcases t with _ | ⟨q, o, ch⟩
  · simp [wfI] at hwf
  obtain ⟨rfl, hwf2⟩ : q = rp0 ∧ _ := by
    rw [wfI, Bool.and_eq_true, decide_eq_true_eq] at hwf
    exact hwf
  have ho : o = true := by simpa [rootIsOpen] using hopen
  subst ho
  set t := TItem.node q true ch with ht
  have hrpS : q ∈ opensI t := by
    rw [ht, opensI]
    simp
  intro p
  have heq : (refresh σ resolve ⟨q, [t], nm0, cp0, cm0, marks0⟩).tree =
      setExpansionState σ resolve nm0 (opensL [t])
        [expandNode σ resolve nm0 (mkNode σ q true)] := rfl
  rw [heq, opensL_singleton]
  have hSne : ¬ (opensI t).isEmpty = true := by
    rw [List.isEmpty_iff]
    intro hnil
    rw [hnil] at hrpS
    simp at hrpS
  rw [setExpansionState, if_neg hSne, List.map_cons, List.map_nil, opensL_singleton]
  -- the freshly rebuilt root: open, already expanded to fresh children
  have ht0 : expandNode σ resolve nm0 (mkNode σ q true) =
      TItem.node q true
        ((iterDirectory σ resolve nm0 q).map (fun q => mkNode σ q false)) := by
    rw [mkNode, if_pos hroot, expandNode]
    rfl
  rw [ht0]
  have hF : maxPathLen σ + 2 = (maxPathLen σ + 1) + 1 := rfl
  rw [hF]
  simp only [expandMatching, if_pos hrpS, expandNode,
    isPlaceholderList_map_mkNode, Bool.false_eq_true, if_false, List.map_map]
  -- membership in the restored tree is reachability through the snapshot
  have key : ∀ r ∈ iterDirectory σ resolve nm0 q,
      (p ∈ opensI (expandMatching σ resolve nm0 (opensI t) (maxPathLen σ + 1)
          (mkNode σ r false)) ↔ Conn σ resolve nm0 (opensI t) r p) := by
    intro r hr
    obtain ⟨hlen, -, b, hentry⟩ := childrenP_length (mem_iterDirectory hr)
    have hle := entry_length_le_max hentry
    have hrne : r ≠ [] := by
      intro hnil
      rw [hnil] at hlen
      simp at hlen
    exact expandMatching_fresh_opens σ resolve nm0 (opensI t) hdirs
      (maxPathLen σ + 1) r (by omega) (by omega) hrne p
  rw [opensI, if_pos rfl, List.mem_append, mem_opensL]
  constructor
  · rintro (hp1 | ⟨c, hc, hpc⟩)
    · have hpq : p = q := by simpa using hp1
      subst hpq
      exact hrpS
    · obtain ⟨r, hr, rfl⟩ := List.mem_map.mp hc
      exact conn_last_mem ((key r hr).mp hpc)
  · intro hp
    have hconn : Conn σ resolve nm0 (opensI t) q p :=
      wf_oc_opens_conn σ resolve nm0 (opensI t) t q hwf hoc (fun x hx => hx) p hp
    rcases conn_unfold hconn with rfl | ⟨r, hr, hconn'⟩
    · exact Or.inl (by simp)
    · exact Or.inr ⟨_, List.mem_map.mpr ⟨r, hr, rfl⟩, (key r hr).mpr hconn'⟩

/-- Witness for C2: on the connected variant of the same tree (`a` open as
well), the expansion set survives `refresh()` unchanged. -/
theorem c2_witness :
    (wfI fsRAB id [] ["r"] treeConnOpen = true ∧ ocI treeConnOpen = true ∧
      rootIsOpen treeConnOpen = true ∧ isDir fsRAB ["r"] = true) ∧
    ∀ p, p ∈ opensL (refresh fsRAB id stConnOpen).tree ↔ p ∈ opensL stConnOpen.tree :=
  ⟨⟨by decide, by decide, by decide, by decide⟩,
   c2_expansion_identity fsRAB id stConnOpen treeConnOpen rfl (by decide) (by decide)
     (by decide) (by decide) (by decide)⟩

end NenoTkFB
